import Mathlib

/-!
Shallow embedding of `AP_01/ID3.py`: a tabular dataset with ID3 decision-tree
construction, entropy / information gain, rule derivation and training-set
accuracy.

Modelling conventions:
* A Python record (`dict` from attribute name to categorical value) is a
  `List (String × String)`; `tup[k]` is `getA tup k` (the table invariant
  guarantees the key is present; the `""` default is never exercised in the
  statements below, which are self-consistent in `getA`).
* Python dict-comprehension key order (`{v: ... for v in values}`) is
  first-occurrence order, embedded by `uniq`.  Python `set` iteration order is
  implementation-defined; it is likewise embedded as first-occurrence order
  (this only matters for tie-breaking in `mostCommon`, and the concrete inputs
  used below have unique maxima, so the choice is immaterial there).
* The shared mutable `attrs` list of `Dataset._id3` (mutated in place by
  `attrs.remove(attr)`) is embedded by explicit state passing: `id3F` takes the
  current list and returns the list as left by the call, exactly as the Python
  object identity threads it through the sequential recursion.
* `Dataset._id3` has unbounded recursion in Python; the embedding takes a fuel
  parameter and reports exhaustion as `Id3Err.fuelOut`.  The two places where
  Python `max()` could raise `ValueError` on an empty sequence are reported as
  distinct errors.
* Entropy uses real `logb 2`; Python's floats are idealised as `ℝ`.
-/

abbrev Record := List (String × String)

/-- `tup[k]` for a record: dictionary lookup (table invariant: key present). -/
def getA (tup : Record) (k : String) : String := (tup.lookup k).getD ""

/-- First-occurrence deduplication: the key order of a Python dict
comprehension `{v: ... for v in values}`. -/
def uniq : List String → List String
  | [] => []
  | x :: xs => x :: uniq (xs.filter (fun y => y ≠ x))
termination_by l => l.length
decreasing_by
  simp only [List.length_cons]
  exact Nat.lt_succ_of_le (List.length_filter_le _ _)

/-- The ID3 dataset: predictor attribute names, target attribute name, records.
(`populate_data` of the source fills these from the tab-separated lines; the
loader itself is out of scope.) -/
structure Dataset where
  headers : List String
  target : String
  data : List Record

/-- The `s is None` branch of `Dataset.entropy`: plain entropy of attribute `r`
over `dataset`, `-Σ p·log2(p)` accumulated in first-occurrence value order. -/
noncomputable def entropyValues (dataset : List Record) (r : String) : ℝ :=
  let values := dataset.map (fun tup => getA tup r)
  (uniq values).foldl
    (fun e v =>
      e - ((values.count v : ℝ) / (values.length : ℝ)) *
            Real.logb 2 ((values.count v : ℝ) / (values.length : ℝ))) 0

/-- `Dataset.entropy(self, r, s=None, dataset=None)`.  Python's
`if not dataset: dataset = self.data` replaces both `None` and the empty list
by `self.data`; the conditional branch recurses with `dataset=subset`. -/
noncomputable def Dataset.entropy (d : Dataset) (r : String) (s : Option String)
    (dataset : Option (List Record)) : ℝ :=
  let ds := match dataset with
            | none => d.data
            | some l => if l = [] then d.data else l
  match s with
  | none => entropyValues ds r
  | some sv =>
      let sValues := ds.map (fun tup => getA tup sv)
      (uniq sValues).foldl
        (fun e v =>
          let subset := ds.filter (fun tup => getA tup sv == v)
          e + ((sValues.count v : ℝ) / (sValues.length : ℝ)) *
                entropyValues (if subset = [] then d.data else subset) r) 0

/-- `Dataset.information_gain(self, r, s)`: both entropies are taken with
`dataset=None`, hence over `self.data` — not over any subset. -/
noncomputable def Dataset.information_gain (d : Dataset) (r s : String) : ℝ :=
  d.entropy r none none - d.entropy r (some s) none

/-- Node type tag: the free-form `type` string of the Python `Node`. -/
inductive NType where
  | attr
  | val
  | label
deriving DecidableEq, Repr

/-- A Python `Node.value`: either a plain string (attr / val nodes) or the
`{'attr': ..., 'val': ...}` dictionary of a label node. -/
inductive NodeVal where
  | str : String → NodeVal
  | pair : String → String → NodeVal
deriving DecidableEq, Repr

/-- The decision-tree node: value, type tag, ordered children. -/
inductive Node where
  | mk : NodeVal → NType → List Node → Node

def Node.value : Node → NodeVal
  | .mk v _ _ => v

def Node.type : Node → NType
  | .mk _ t _ => t

def Node.children : Node → List Node
  | .mk _ _ c => c

/-- `Node.is_leaf`: the type tag is `'label'`. -/
def Node.is_leaf (n : Node) : Bool := n.type = NType.label

/-- `max(set(l), key=l.count)`: most frequent element, ties broken by
(implementation-defined set order, embedded as) first occurrence; `none` models
the `ValueError` of `max` on an empty sequence. -/
def mostCommon (l : List String) : Option String :=
  match uniq l with
  | [] => none
  | h :: t => some (t.foldl (fun acc x => if l.count acc < l.count x then x else acc) h)

/-- `max(attrs, key=lambda x: info_gain[x])`: first element attaining the
maximal key.  `max` on `[]` raises; this case is unreachable behind the
`elif not attrs` guard, so the `""` default is never produced by `id3F`. -/
noncomputable def pymaxR (f : String → ℝ) : List String → String
  | [] => ""
  | h :: t => t.foldl (fun acc x => if f acc < f x then x else acc) h

/-- Failure modes of the embedded `_id3`. -/
inductive Id3Err where
  /-- fuel exhausted (the embedding artifact standing for unbounded recursion) -/
  | fuelOut
  /-- `ValueError` from `max(set(t_values), ...)` when the attribute list is
  exhausted over an empty record list -/
  | emptyMax
  /-- `ValueError` from `max(set(subset_t_values), ...)` in the empty
  sub-partition fallback inside the branch loop -/
  | emptySubsetMax
deriving DecidableEq, Repr

/-- The body of the `for val in a_values` loop of `Dataset._id3`, one
iteration: `recur` stands for the recursive `self._id3(target, attrs, subset)`
call.  The accumulator carries the children built so far (the net effect of
`root.add` / `child.add`) and the current state of the shared `attrs` list. -/
def id3Step (target attr : String) (dataset : List Record)
    (recur : List String → List Record → Except Id3Err (Node × List String))
    (acc : Except Id3Err (List Node × List String)) (v : String) :
    Except Id3Err (List Node × List String) :=
  match acc with
  | Except.error e => Except.error e
  | Except.ok (children, attrs) =>
    let subset := dataset.filter (fun tup => getA tup attr == v)
    if subset = [] then
      match mostCommon (subset.map (fun tup => getA tup target)) with
      | none => Except.error Id3Err.emptySubsetMax
      | some common =>
        Except.ok (children ++ [Node.mk (NodeVal.str v) NType.val
              [Node.mk (NodeVal.pair target common) NType.label []]], attrs)
    else
      let attrs' := if attrs ≠ [] ∧ attr ∈ attrs then attrs.erase attr else attrs
      match recur attrs' subset with
      | Except.error e => Except.error e
      | Except.ok (sub, attrs'') =>
        Except.ok (children ++ [Node.mk (NodeVal.str v) NType.val [sub]], attrs'')

/-- `Dataset._id3(self, target, attrs, dataset)` with explicit fuel and with the
shared mutable `attrs` list threaded as state (returned alongside the tree).
The branch loop threads the same list object through every child, so removals
performed inside one child's recursion are visible to later siblings. -/
noncomputable def id3F (d : Dataset) : Nat → String → List String → List Record →
    Except Id3Err (Node × List String)
  | 0, _, _, _ => Except.error Id3Err.fuelOut
  | fuel + 1, target, attrs, dataset =>
    let tValues := dataset.map (fun tup => getA tup target)
    if (uniq tValues).length = 1 then
      Except.ok (Node.mk (NodeVal.pair target ((uniq tValues).headD "")) NType.label [], attrs)
    else if attrs = [] then
      match mostCommon tValues with
      | none => Except.error Id3Err.emptyMax
      | some common => Except.ok (Node.mk (NodeVal.pair target common) NType.label [], attrs)
    else
      let attr := pymaxR (fun a => d.information_gain target a) attrs
      let aValues := List.insertionSort (fun a b => a ≤ b)
        (uniq (dataset.map (fun tup => getA tup attr)))
      let fold := aValues.foldl
        (id3Step target attr dataset (fun attrs' subset => id3F d fuel target attrs' subset))
        (Except.ok (([] : List Node), attrs))
      match fold with
      | Except.error e => Except.error e
      | Except.ok (children, attrs') =>
          Except.ok (Node.mk (NodeVal.str attr) NType.attr children, attrs')

/-- `Dataset.build_tree`: `self._id3(self.target, self.headers, self.data)`.
The fuel `headers.length + 1` is provably sufficient (see the termination
theorem); the returned list is the state in which the call leaves
`self.headers`. -/
noncomputable def Dataset.build_tree (d : Dataset) : Except Id3Err (Node × List String) :=
  id3F d (d.headers.length + 1) d.target d.headers d.data

mutual
/-- `Dataset.paths(self, node, path)`: depth-first generator of root-to-leaf
value sequences; a leaf contributes `path + [node.value]`, and every child is
explored with the node's value appended.  Embedded as the list of yields in
generator order. -/
def paths : Node → List NodeVal → List (List NodeVal)
  | Node.mk v t cs, path =>
    (if t = NType.label then [path ++ [v]] else []) ++ pathsList cs (path ++ [v])

/-- The `for child in node.children` part of `Dataset.paths`: yields of the
children in order. -/
def pathsList : List Node → List NodeVal → List (List NodeVal)
  | [], _ => []
  | c :: cs, path => paths c path ++ pathsList cs path
end

/-- `tuple(zip(*(iter(r[:-1]),) * 2))`: consecutive pairing, dropping an odd
leftover element. -/
def pairUp : List NodeVal → List (NodeVal × NodeVal)
  | a :: b :: rest => (a, b) :: pairUp rest
  | _ => []

/-- Extract the plain string of an attr / val node's value.  A label dictionary
is not a valid record key (Python would raise on `tup[dict]`); trees built by
`id3F` only ever put plain strings in rule conjuncts, so the `""` default is
unreachable there. -/
def NodeVal.asStr : NodeVal → String
  | .str s => s
  | .pair _ _ => ""

/-- One derived rule: the `(attr, value)` conjuncts (`rule[1]` in the source)
and the leaf conclusion value (`rule[2]`, the `{'attr':..., 'val':...}` dict).
The human-readable `rule[0]` string is print formatting and is omitted. -/
structure PyRule where
  conds : List (String × String)
  concl : NodeVal
deriving DecidableEq, Repr

/-- The `(attr, value)` string pairs obtained from consecutively paired node
values (`attr_pairs` in `derive_ruleset`). -/
def condsOfPairs (l : List NodeVal) : List (String × String) :=
  (pairUp l).map (fun p => (p.1.asStr, p.2.asStr))

/-- The ruleset derived from a tree: for each root-to-leaf path, conjuncts from
the consecutively paired interior (`r[:-1]`) and conclusion from the leaf
(`r[-1]`).  (`paths` never yields `[]`, so the `getLastD` default is
unreachable.) -/
def rulesOf (t : Node) : List PyRule :=
  (paths t []).map (fun r =>
    { conds := condsOfPairs r.dropLast,
      concl := r.getLastD (NodeVal.str "") })

/-- `Dataset.eval_condition`: conjunction of equality tests
`tup[attr] == val`. -/
def Dataset.eval_condition (tup : Record) (attr_val_pairs : List (String × String)) : Bool :=
  attr_val_pairs.all (fun p => getA tup p.1 == p.2)

/-- Failure modes of the accuracy computation. -/
inductive RunErr where
  /-- `ZeroDivisionError` in `total_correct / len(self.data)` -/
  | zeroDiv
  /-- `KeyError` in `rule[2][self.target]` -/
  | keyErr
deriving DecidableEq, Repr

/-- `rule[2][self.target]`: look the target up in the one-entry conclusion
dictionary `{result['attr']: result['val']}`. -/
def ruleTargetVal (target : String) : NodeVal → Except RunErr String
  | NodeVal.pair a v => if a = target then Except.ok v else Except.error RunErr.keyErr
  | NodeVal.str _ => Except.error RunErr.keyErr

/-- The rule loop of `Dataset.accuracy`: for each rule, count the records that
satisfy its conjuncts and carry its predicted target value. -/
def totalCorrect (data : List Record) (target : String) : List PyRule → Except RunErr Nat
  | [] => Except.ok 0
  | r :: rs =>
    match ruleTargetVal target r.concl with
    | Except.error e => Except.error e
    | Except.ok v =>
      let data_subset := data.filter (fun tup => Dataset.eval_condition tup r.conds)
      let correct_preds := data_subset.filter (fun tup => getA tup target == v)
      match totalCorrect data target rs with
      | Except.error e => Except.error e
      | Except.ok rest => Except.ok (correct_preds.length + rest)

/-- `Dataset.accuracy` given an already-derived ruleset: the loop runs first,
then `total_correct / len(self.data)` divides (raising on an empty table). -/
def accuracyOn (data : List Record) (target : String) (rules : List PyRule) :
    Except RunErr ℚ :=
  match totalCorrect data target rules with
  | Except.error e => Except.error e
  | Except.ok n =>
      if data.length = 0 then Except.error RunErr.zeroDiv
      else Except.ok ((n : ℚ) / (data.length : ℚ))

/-- The fresh-object pipeline of `Dataset.accuracy`: `self.ruleset` and
`self.tree` start as `None`, so accuracy builds the tree, derives the ruleset
and evaluates it. -/
noncomputable def Dataset.accuracy (d : Dataset) : Except Id3Err (Except RunErr ℚ) :=
  (d.build_tree).map (fun p => accuracyOn d.data d.target (rulesOf p.1))

mutual
/-- No attribute-test node repeats an attribute already tested by an ancestor:
`used` collects the attr-node names on the path from the root. -/
def distinctTests (used : List String) : Node → Bool
  | Node.mk (NodeVal.str a) NType.attr cs =>
      !(used.contains a) && distinctTestsList (a :: used) cs
  | Node.mk _ _ cs => distinctTestsList used cs

/-- `distinctTests` over a children list. -/
def distinctTestsList (used : List String) : List Node → Bool
  | [] => true
  | c :: cs => distinctTests used c && distinctTestsList used cs
end

/-- Conditional entropy computed over an explicit record subset (no fallback
to `self.data`; the sub-partitions of a non-empty subset are non-empty). -/
noncomputable def condEntropyOn (dataset : List Record) (r s : String) : ℝ :=
  let sValues := dataset.map (fun tup => getA tup s)
  (uniq sValues).foldl
    (fun e v =>
      e + ((sValues.count v : ℝ) / (sValues.length : ℝ)) *
            entropyValues (dataset.filter (fun tup => getA tup s == v)) r) 0

/-- The quantity §4.2 step 3 of the spec prescribes for attribute selection:
information gain computed over the record subset of the current recursive call
(`entropy(target, subset) − conditional_entropy(target, split, subset)`).
Named after the spec, for comparison with the source's `information_gain`,
which always evaluates over `self.data`. -/
noncomputable def specSubsetGain (dataset : List Record) (r s : String) : ℝ :=
  entropyValues dataset r - condEntropyOn dataset r s

/-- Two successive `build_tree` calls on the same Dataset object.  The first
call leaves `self.headers` in the state the recursion left the shared attrs
list; the second call reads that state. -/
noncomputable def buildTreeTwice (d : Dataset) : Except Id3Err (Node × Node) :=
  match d.build_tree with
  | Except.error e => Except.error e
  | Except.ok (t1, hs) =>
      match Dataset.build_tree { d with headers := hs } with
      | Except.error e => Except.error e
      | Except.ok (t2, _) => Except.ok (t1, t2)

/-- Concrete example table: predictors `A`, `C`, `B` (in that order), target
`T`.  All three predictors have equal information gain over the full table,
while inside the `A = a1` partition `B` separates the target perfectly and `C`
is constant. -/
def exD : Dataset :=
  { headers := ["A","C","B"]
    target := "T"
    data := [[("A","a1"),("C","c1"),("B","b1"),("T","x")],
             [("A","a1"),("C","c1"),("B","b2"),("T","y")],
             [("A","a2"),("C","c2"),("B","b1"),("T","y")],
             [("A","a2"),("C","c2"),("B","b2"),("T","y")]] }

/-- The tree the source builds from `exD`. -/
def exTree : Node :=
  Node.mk (NodeVal.str "A") NType.attr [
    Node.mk (NodeVal.str "a1") NType.val [
      Node.mk (NodeVal.str "C") NType.attr [
        Node.mk (NodeVal.str "c1") NType.val [
          Node.mk (NodeVal.str "B") NType.attr [
            Node.mk (NodeVal.str "b1") NType.val [Node.mk (NodeVal.pair "T" "x") NType.label []],
            Node.mk (NodeVal.str "b2") NType.val [Node.mk (NodeVal.pair "T" "y") NType.label []]]]]],
    Node.mk (NodeVal.str "a2") NType.val [Node.mk (NodeVal.pair "T" "y") NType.label []]]

/-- A table with one predictor and zero records. -/
def dEmpty : Dataset :=
  { headers := ["W"]
    target := "T"
    data := [] }

/-! ### Basic properties of the helpers -/

theorem foldl_inv {α σ : Type _} (step : σ → α → σ) (P : σ → Prop) :
    ∀ (l : List α) (init : σ), P init → (∀ s a, a ∈ l → P s → P (step s a)) →
      P (l.foldl step init) := by
  intro l
  induction l with
  | nil => intro init h _; exact h
  | cons a l ih =>
      intro init h hs
      exact ih (step init a) (hs init a (List.mem_cons_self a l) h)
        (fun s b hb hp => hs s b (List.mem_cons_of_mem _ hb) hp)

theorem mem_uniq : ∀ (l : List String) (x : String), x ∈ uniq l ↔ x ∈ l := by
  intro l
  induction l using uniq.induct with
  | case1 => intro x; simp [uniq]
  | case2 y ys ih =>
      intro x
      rw [uniq]
      simp only [List.mem_cons, ih]
      constructor
      · rintro (rfl | hx)
        · exact Or.inl rfl
        · exact Or.inr (List.mem_of_mem_filter hx)
      · rintro (rfl | hx)
        · exact Or.inl rfl
        · by_cases hxy : x = y
          · exact Or.inl hxy
          · exact Or.inr (List.mem_filter.2 ⟨hx, by simp [hxy]⟩)

theorem nodup_uniq : ∀ (l : List String), (uniq l).Nodup := by
  intro l
  induction l using uniq.induct with
  | case1 => simp [uniq]
  | case2 y ys ih =>
      rw [uniq]
      refine List.nodup_cons.2 ⟨fun hy => ?_, ih⟩
      have := List.of_mem_filter ((mem_uniq _ _).1 hy)
      simp at this

theorem uniq_eq_nil : ∀ (l : List String), uniq l = [] ↔ l = [] := by
  intro l
  cases l with
  | nil => simp [uniq]
  | cons x xs => rw [uniq]; simp

theorem pymaxR_mem (f : String → ℝ) : ∀ (l : List String), l ≠ [] → pymaxR f l ∈ l := by
  intro l hl
  cases l with
  | nil => exact absurd rfl hl
  | cons h t =>
      rw [pymaxR]
      refine foldl_inv _ (fun acc => acc ∈ h :: t) t h (List.mem_cons_self h t) ?_
      intro s a ha hs
      split
      · exact List.mem_cons_of_mem _ ha
      · exact hs

/-- Python `max` keeps the first element attaining the maximum; in particular,
when the head is a weak maximum of the key it is returned. -/
theorem pymaxR_eq_head (f : String → ℝ) (h : String) (t : List String)
    (hle : ∀ x ∈ t, f x ≤ f h) : pymaxR f (h :: t) = h := by
  rw [pymaxR]
  refine foldl_inv _ (fun acc => acc = h) t h rfl ?_
  intro s a ha hs
  subst hs
  rw [if_neg (not_lt.2 (hle a ha))]

theorem mostCommon_eq_none : ∀ (l : List String), mostCommon l = none ↔ l = [] := by
  intro l
  rw [mostCommon]
  rcases hu : uniq l with _ | ⟨h, t⟩
  · simpa using (uniq_eq_nil l).1 hu
  · simp only []
    constructor
    · intro h; cases h
    · intro h; subst h; simp [uniq] at hu

/-! ### Invariants of the embedded `_id3` -/

/-- One loop iteration can only shrink the attrs state (given that the
recursive call it wraps can only shrink it). -/
theorem id3Step_sublist {target attr : String} {dataset : List Record}
    {recur : List String → List Record → Except Id3Err (Node × List String)}
    (hrec : ∀ as ds t as', recur as ds = Except.ok (t, as') → List.Sublist as' as)
    {cs0 cs : List Node} {as0 as : List String} {v : String}
    (hsa : id3Step target attr dataset recur (Except.ok (cs0, as0)) v = Except.ok (cs, as)) :
    List.Sublist as as0 := by
  rw [id3Step] at hsa
  dsimp only at hsa
  generalize hA : (if as0 ≠ [] ∧ attr ∈ as0 then as0.erase attr else as0) = as2 at hsa
  have h2 : List.Sublist as2 as0 := by
    rw [← hA]
    split
    · exact List.erase_sublist _ _
    · exact List.Sublist.refl _
  split at hsa
  · split at hsa
    · cases hsa
    · simp only [Except.ok.injEq, Prod.mk.injEq] at hsa
      exact hsa.2 ▸ List.Sublist.refl _
  · split at hsa
    · cases hsa
    · rename_i sub as1 hrec1
      simp only [Except.ok.injEq, Prod.mk.injEq] at hsa
      exact hsa.2 ▸ ((hrec _ _ _ _ hrec1).trans h2)

/-- The attrs list only ever loses elements: the state in which a call leaves
the shared list is a sublist of the state in which it received it. -/
theorem id3F_ok_sublist : ∀ (fuel : Nat) (d : Dataset) (target : String)
    (attrs : List String) (dataset : List Record) (t : Node) (attrs' : List String),
    id3F d fuel target attrs dataset = Except.ok (t, attrs') →
      List.Sublist attrs' attrs := by
  intro fuel
  induction fuel with
  | zero =>
      intro d target attrs dataset t attrs' h
      simp [id3F] at h
  | succ fuel ih =>
      intro d target attrs dataset t attrs' h
      rw [id3F] at h
      split at h
      · simp only [Except.ok.injEq, Prod.mk.injEq] at h
        exact h.2 ▸ List.Sublist.refl _
      · split at h
        · split at h
          · cases h
          · simp only [Except.ok.injEq, Prod.mk.injEq] at h
            exact h.2 ▸ List.Sublist.refl _
        · dsimp only at h
          split at h
          · cases h
          · rename_i children as' hfold
            simp only [Except.ok.injEq, Prod.mk.injEq] at h
            have inv := foldl_inv
              (id3Step target (pymaxR (fun a => d.information_gain target a) attrs) dataset
                (fun attrs' subset => id3F d fuel target attrs' subset))
              (fun acc => ∀ cs as, acc = Except.ok (cs, as) → List.Sublist as attrs)
              (List.insertionSort (fun a b => a ≤ b)
                (uniq (dataset.map (fun tup =>
                  getA tup (pymaxR (fun a => d.information_gain target a) attrs)))))
              (Except.ok (([] : List Node), attrs))
              (by intro cs as hca; simp only [Except.ok.injEq, Prod.mk.injEq] at hca
                  exact hca.2 ▸ List.Sublist.refl _)
              ?_
            · exact h.2 ▸ inv _ _ hfold
            · intro s a ha hp cs as hsa
              match s with
              | Except.error e => cases hsa
              | Except.ok (cs0, as0) =>
                have step := id3Step_sublist
                  (fun as ds t as' hr => ih d target as ds t as' hr) hsa
                exact step.trans (hp cs0 as0 rfl)

/-- Every branch value of the loop is observed in `dataset`, so its
sub-partition is non-empty. -/
theorem branch_subset_ne_nil {attr v : String} {dataset : List Record}
    (hv : v ∈ List.insertionSort (fun a b => a ≤ b)
      (uniq (dataset.map (fun tup => getA tup attr)))) :
    dataset.filter (fun tup => getA tup attr == v) ≠ [] := by
  have hv1 : v ∈ uniq (dataset.map (fun tup => getA tup attr)) :=
    (List.Perm.mem_iff (List.perm_insertionSort _ _)).1 hv
  have hv2 : v ∈ dataset.map (fun tup => getA tup attr) := (mem_uniq _ _).1 hv1
  obtain ⟨tup, htup, hval⟩ := List.mem_map.1 hv2
  exact List.ne_nil_of_mem (List.mem_filter.2 ⟨htup, by simp [hval]⟩)

/-- A loop iteration never reports the empty-sub-partition `ValueError` when
its branch value has a non-empty sub-partition and the recursion does not. -/
theorem id3Step_ne_emptySubsetMax {target attr : String} {dataset : List Record}
    {recur : List String → List Record → Except Id3Err (Node × List String)}
    (hrec : ∀ as ds, recur as ds ≠ Except.error Id3Err.emptySubsetMax)
    {s : Except Id3Err (List Node × List String)} {v : String}
    (hs : s ≠ Except.error Id3Err.emptySubsetMax)
    (hv : dataset.filter (fun tup => getA tup attr == v) ≠ []) :
    id3Step target attr dataset recur s v ≠ Except.error Id3Err.emptySubsetMax := by
  match s with
  | Except.error e => rw [id3Step]; exact hs
  | Except.ok (cs0, as0) =>
      rw [id3Step]
      dsimp only
      rw [if_neg hv]
      split
      · rename_i e heq
        simp only [ne_eq, Except.error.injEq]
        intro he
        exact hrec _ _ (he ▸ heq)
      · simp

/-- The `not subset` fallback of the branch loop (majority vote over an empty
sub-partition) is never executed: branch values are exactly the values observed
in the current record subset, so every sub-partition is non-empty.  This holds
for every fuel, every attrs state and every record subset. -/
theorem id3F_ne_emptySubsetMax : ∀ (fuel : Nat) (d : Dataset) (target : String)
    (attrs : List String) (dataset : List Record),
    id3F d fuel target attrs dataset ≠ Except.error Id3Err.emptySubsetMax := by
  intro fuel
  induction fuel with
  | zero =>
      intro d target attrs dataset
      simp [id3F]
  | succ fuel ih =>
      intro d target attrs dataset
      rw [id3F]
      split
      · simp
      · split
        · split
          · simp
          · simp
        · dsimp only
          have inv := foldl_inv
            (id3Step target (pymaxR (fun a => d.information_gain target a) attrs) dataset
              (fun attrs' subset => id3F d fuel target attrs' subset))
            (fun acc => acc ≠ Except.error Id3Err.emptySubsetMax)
            (List.insertionSort (fun a b => a ≤ b)
              (uniq (dataset.map (fun tup =>
                getA tup (pymaxR (fun a => d.information_gain target a) attrs)))))
            (Except.ok (([] : List Node), attrs))
            (by simp)
            (fun s a ha hp =>
              id3Step_ne_emptySubsetMax (fun as ds => ih d target as ds) hp
                (branch_subset_ne_nil ha))
          split
          · rename_i e heq
            simp only [ne_eq, Except.error.injEq]
            intro he
            exact inv (he ▸ heq)
          · simp

/-- Fuel invariant of one loop iteration: the threaded attrs state is either
still the entry list or strictly shorter than it, and no iteration reports
fuel exhaustion, provided the wrapped recursion (a) never reports fuel
exhaustion when handed a list shorter than the entry list and (b) only
shrinks the list. -/
theorem id3Step_fuel {target attr : String} {dataset : List Record}
    {recur : List String → List Record → Except Id3Err (Node × List String)}
    {attrs : List String} (hattr : attr ∈ attrs)
    (hrecF : ∀ as ds, as.length < attrs.length → recur as ds ≠ Except.error Id3Err.fuelOut)
    (hrecS : ∀ as ds t as', recur as ds = Except.ok (t, as') → List.Sublist as' as)
    {s : Except Id3Err (List Node × List String)} {v : String}
    (hs : (∀ e, s = Except.error e → e ≠ Id3Err.fuelOut) ∧
          (∀ cs as, s = Except.ok (cs, as) → as = attrs ∨ as.length < attrs.length)) :
    (∀ e, id3Step target attr dataset recur s v = Except.error e → e ≠ Id3Err.fuelOut) ∧
    (∀ cs as, id3Step target attr dataset recur s v = Except.ok (cs, as) →
       as = attrs ∨ as.length < attrs.length) := by
  match s with
  | Except.error e =>
      rw [id3Step]
      exact ⟨fun e' he' => hs.1 e' he', fun cs as hca => by cases hca⟩
  | Except.ok (cs0, as0) =>
      have hlt : (if as0 ≠ [] ∧ attr ∈ as0 then as0.erase attr else as0).length <
          attrs.length := by
        rcases hs.2 cs0 as0 rfl with h0 | h0
        · subst h0
          have hne : as0 ≠ [] := List.ne_nil_of_mem hattr
          rw [if_pos ⟨hne, hattr⟩, List.length_erase_of_mem hattr]
          have := List.length_pos.2 hne
          omega
        · refine lt_of_le_of_lt ?_ h0
          split
          · exact List.Sublist.length_le (List.erase_sublist _ _)
          · exact le_refl _
      rw [id3Step]
      dsimp only
      split
      · split
        · refine ⟨fun e' he' => ?_, fun cs as hca => by cases hca⟩
          injection he' with h
          subst h
          simp
        · refine ⟨fun e' he' => Except.noConfusion he', fun cs as hca => ?_⟩
          simp only [Except.ok.injEq, Prod.mk.injEq] at hca
          exact hca.2 ▸ hs.2 cs0 as0 rfl
      · split
        · rename_i e1 heq
          refine ⟨fun e' he' => ?_, fun cs as hca => by cases hca⟩
          injection he' with h
          subst h
          intro hfo
          exact hrecF _ _ hlt (hfo ▸ heq)
        · rename_i sub as1 heq
          refine ⟨fun e' he' => Except.noConfusion he', fun cs as hca => ?_⟩
          simp only [Except.ok.injEq, Prod.mk.injEq] at hca
          refine hca.2 ▸ Or.inr (lt_of_le_of_lt ?_ hlt)
          exact List.Sublist.length_le (hrecS _ _ _ _ heq)

/-- With fuel exceeding the number of remaining attributes, the embedded
`_id3` never exhausts its fuel: every non-terminal branch strictly shrinks
the finite attrs list, so the recursion depth is bounded by its length. -/
theorem id3F_fuel_sufficient : ∀ (fuel : Nat) (d : Dataset) (target : String)
    (attrs : List String) (dataset : List Record), attrs.length < fuel →
    id3F d fuel target attrs dataset ≠ Except.error Id3Err.fuelOut := by
  intro fuel
  induction fuel with
  | zero =>
      intro d target attrs dataset hlen
      omega
  | succ fuel ih =>
      intro d target attrs dataset hlen
      rw [id3F]
      split
      · simp
      · split
        · split
          · simp
          · simp
        · rename_i hne1 hne2
          dsimp only
          have hattr : pymaxR (fun a => d.information_gain target a) attrs ∈ attrs :=
            pymaxR_mem _ attrs hne2
          have inv := foldl_inv
            (id3Step target (pymaxR (fun a => d.information_gain target a) attrs) dataset
              (fun attrs' subset => id3F d fuel target attrs' subset))
            (fun acc => (∀ e, acc = Except.error e → e ≠ Id3Err.fuelOut) ∧
              (∀ cs as, acc = Except.ok (cs, as) → as = attrs ∨ as.length < attrs.length))
            (List.insertionSort (fun a b => a ≤ b)
              (uniq (dataset.map (fun tup =>
                getA tup (pymaxR (fun a => d.information_gain target a) attrs)))))
            (Except.ok (([] : List Node), attrs))
            (by constructor
                · intro e he; cases he
                · intro cs as hca
                  simp only [Except.ok.injEq, Prod.mk.injEq] at hca
                  exact Or.inl hca.2.symm)
            (fun s a ha hp =>
              id3Step_fuel hattr
                (fun as ds hlt => ih d target as ds (by omega))
                (fun as ds t as' hr => id3F_ok_sublist fuel d target as ds t as' hr)
                hp)
          split
          · rename_i e heq
            simp only [ne_eq, Except.error.injEq]
            intro he
            exact inv.1 e heq he
          · simp

/-- A loop iteration preserves "every child built so far tests only attributes
below the current node, each at most once", given that the recursion
establishes the same for the subtrees it returns. -/
theorem id3Step_distinct {target attr : String} {dataset : List Record}
    {recur : List String → List Record → Except Id3Err (Node × List String)}
    {attrs used : List String}
    (hrec : ∀ as ds t as', List.Sublist as attrs → (∀ a ∈ as, a ≠ attr) →
      recur as ds = Except.ok (t, as') → distinctTests (attr :: used) t = true)
    (hrecS : ∀ as ds t as', recur as ds = Except.ok (t, as') → List.Sublist as' as)
    (hnd : attrs.Nodup)
    {s : Except Id3Err (List Node × List String)} {v : String}
    (hs : ∀ cs as, s = Except.ok (cs, as) → List.Sublist as attrs ∧
      ∀ c ∈ cs, distinctTests (attr :: used) c = true) :
    ∀ cs as, id3Step target attr dataset recur s v = Except.ok (cs, as) →
      List.Sublist as attrs ∧ ∀ c ∈ cs, distinctTests (attr :: used) c = true := by
  match s with
  | Except.error e => intro cs as hca; rw [id3Step] at hca; cases hca
  | Except.ok (cs0, as0) =>
      intro cs as hca
      obtain ⟨hsub0, hgood0⟩ := hs cs0 as0 rfl
      rw [id3Step] at hca
      dsimp only at hca
      have hsub2 : List.Sublist
          (if as0 ≠ [] ∧ attr ∈ as0 then as0.erase attr else as0) as0 := by
        split
        · exact List.erase_sublist _ _
        · exact List.Sublist.refl _
      have hne2 : ∀ a ∈ (if as0 ≠ [] ∧ attr ∈ as0 then as0.erase attr else as0),
          a ≠ attr := by
        split
        · rename_i hc
          intro a ha
          exact (List.Nodup.mem_erase_iff (hsub0.nodup hnd)).1 ha |>.1
        · rename_i hc
          intro a ha
          push_neg at hc
          rcases eq_or_ne as0 [] with h0 | h0
          · subst h0; cases ha
          · intro haeq; exact (hc h0) (haeq ▸ ha)
      split at hca
      · split at hca
        · cases hca
        · simp only [Except.ok.injEq, Prod.mk.injEq] at hca
          refine ⟨hca.2 ▸ hsub0, ?_⟩
          intro c hc
          rw [← hca.1] at hc
          rcases List.mem_append.1 hc with h | h
          · exact hgood0 c h
          · simp only [List.mem_singleton] at h
            subst h
            simp [distinctTests, distinctTestsList]
      · split at hca
        · cases hca
        · rename_i sub as1 heq
          simp only [Except.ok.injEq, Prod.mk.injEq] at hca
          have hdsub := hrec _ _ _ _ (hsub2.trans hsub0) hne2 heq
          refine ⟨hca.2 ▸ ((hrecS _ _ _ _ heq).trans (hsub2.trans hsub0)), ?_⟩
          intro c hc
          rw [← hca.1] at hc
          rcases List.mem_append.1 hc with h | h
          · exact hgood0 c h
          · simp only [List.mem_singleton] at h
            subst h
            simp [distinctTests, distinctTestsList, hdsub]

/-- Trees built by the embedded `_id3` under a duplicate-free attrs list never
test, below an attr node, an attribute already tested on the path: `used`
names the ancestors' tested attributes. -/
theorem id3F_distinct : ∀ (fuel : Nat) (d : Dataset) (target : String)
    (attrs : List String) (dataset : List Record) (t : Node) (attrs' : List String)
    (used : List String), attrs.Nodup → (∀ a ∈ attrs, a ∉ used) →
    id3F d fuel target attrs dataset = Except.ok (t, attrs') →
    distinctTests used t = true := by
  intro fuel
  induction fuel with
  | zero =>
      intro d target attrs dataset t attrs' used hnd hdisj h
      simp [id3F] at h
  | succ fuel ih =>
      intro d target attrs dataset t attrs' used hnd hdisj h
      rw [id3F] at h
      split at h
      · simp only [Except.ok.injEq, Prod.mk.injEq] at h
        rw [← h.1]
        simp [distinctTests, distinctTestsList]
      · split at h
        · split at h
          · cases h
          · simp only [Except.ok.injEq, Prod.mk.injEq] at h
            rw [← h.1]
            simp [distinctTests, distinctTestsList]
        · rename_i hne1 hne2
          dsimp only at h
          split at h
          · cases h
          · rename_i children as' hfold
            simp only [Except.ok.injEq, Prod.mk.injEq] at h
            have hattr : pymaxR (fun a => d.information_gain target a) attrs ∈ attrs :=
              pymaxR_mem _ attrs hne2
            have inv := foldl_inv
              (id3Step target (pymaxR (fun a => d.information_gain target a) attrs) dataset
                (fun attrs' subset => id3F d fuel target attrs' subset))
              (fun acc => ∀ cs as, acc = Except.ok (cs, as) → List.Sublist as attrs ∧
                ∀ c ∈ cs, distinctTests
                  ((pymaxR (fun a => d.information_gain target a) attrs) :: used) c = true)
              (List.insertionSort (fun a b => a ≤ b)
                (uniq (dataset.map (fun tup =>
                  getA tup (pymaxR (fun a => d.information_gain target a) attrs)))))
              (Except.ok (([] : List Node), attrs))
              (by intro cs as hca
                  simp only [Except.ok.injEq, Prod.mk.injEq] at hca
                  exact ⟨hca.2 ▸ List.Sublist.refl _, by rw [← hca.1]; intro c hc; cases hc⟩)
              (fun s a ha hp =>
                id3Step_distinct
                  (fun as ds t as' hsubl hne hr =>
                    ih d target as ds t as' _ (hsubl.nodup hnd)
                      (by intro x hx
                          simp only [List.mem_cons, not_or]
                          exact ⟨hne x hx, hdisj x (hsubl.mem hx)⟩)
                      hr)
                  (fun as ds t as' hr => id3F_ok_sublist fuel d target as ds t as' hr)
                  hnd hp)
            obtain ⟨hsub, hgood⟩ := inv children as' hfold
            rw [← h.1]
            simp only [distinctTests]
            rw [Bool.and_eq_true]
            refine ⟨?_, ?_⟩
            · simpa using hdisj _ hattr
            · clear h hfold inv
              induction children with
              | nil => rw [distinctTestsList]
              | cons c cs ihc =>
                  rw [distinctTestsList, Bool.and_eq_true]
                  refine ⟨hgood c (List.mem_cons_self _ _), ?_⟩
                  exact ihc (fun c hc => hgood c (List.mem_cons_of_mem _ hc))

theorem foldl_id3Step_error {target attr : String} {dataset : List Record}
    {recur : List String → List Record → Except Id3Err (Node × List String)}
    {e : Id3Err} : ∀ (vs : List String),
    vs.foldl (id3Step target attr dataset recur) (Except.error e) = Except.error e := by
  intro vs
  induction vs with
  | nil => rfl
  | cons v vs ih => rw [List.foldl_cons, id3Step]; exact ih

/-- What a successful branch loop builds: one `ValueBranch`-shaped child per
branch value, in order, each wrapping a subtree returned by the recursion on
the corresponding (non-empty) sub-partition. -/
theorem fold_children_spec {target attr : String} {dataset : List Record}
    {recur : List String → List Record → Except Id3Err (Node × List String)} :
    ∀ (vs : List String) (cs0 : List Node) (as0 : List String) (cs : List Node)
      (as : List String),
    vs.foldl (id3Step target attr dataset recur) (Except.ok (cs0, as0)) = Except.ok (cs, as) →
    (∀ v ∈ vs, dataset.filter (fun tup => getA tup attr == v) ≠ []) →
    ∃ pairs : List (String × Node),
      cs = cs0 ++ pairs.map (fun p => Node.mk (NodeVal.str p.1) NType.val [p.2]) ∧
      pairs.map Prod.fst = vs ∧
      ∀ p ∈ pairs, ∃ as1 as2,
        recur as1 (dataset.filter (fun tup => getA tup attr == p.1)) =
          Except.ok (p.2, as2) := by
  intro vs
  induction vs with
  | nil =>
      intro cs0 as0 cs as h hv
      rw [List.foldl_nil] at h
      simp only [Except.ok.injEq, Prod.mk.injEq] at h
      exact ⟨[], by simp [← h.1], rfl, by simp⟩
  | cons v vs ihv =>
      intro cs0 as0 cs as h hv
      rw [List.foldl_cons] at h
      rw [id3Step] at h
      dsimp only at h
      rw [if_neg (hv v (List.mem_cons_self _ _))] at h
      rcases hr : recur (if as0 ≠ [] ∧ attr ∈ as0 then as0.erase attr else as0)
          (dataset.filter (fun tup => getA tup attr == v)) with e | ⟨sub, as2⟩
      · rw [hr] at h
        rw [foldl_id3Step_error] at h
        cases h
      · rw [hr] at h
        obtain ⟨pairs, hcs, hfst, hrec⟩ :=
          ihv _ _ _ _ h (fun w hw => hv w (List.mem_cons_of_mem _ hw))
        refine ⟨(v, sub) :: pairs, ?_, ?_, ?_⟩
        · rw [hcs]
          simp
        · simp [hfst]
        · intro p hp
          rcases List.mem_cons.1 hp with h0 | h0
          · subst h0
            exact ⟨_, _, hr⟩
          · exact hrec p h0

theorem pairUp_append : ∀ (l1 l2 : List NodeVal), 2 ∣ l1.length →
    pairUp (l1 ++ l2) = pairUp l1 ++ pairUp l2 := by
  intro l1
  induction l1 using pairUp.induct with
  | case1 a b rest ih =>
      intro l2 hlen
      simp only [List.length_cons] at hlen
      rw [List.cons_append, List.cons_append, pairUp, pairUp, ih l2 (by omega),
        List.cons_append]
  | case2 l1 hshape =>
      intro l2 hlen
      rcases l1 with _ | ⟨a, _ | ⟨b, rest⟩⟩
      · simp [pairUp]
      · simp only [List.length_cons, List.length_nil] at hlen
        omega
      · exact absurd rfl (hshape a b rest)

theorem eval_condsOfPairs_append2 (tup : Record) (pre : List NodeVal) (a v : String)
    (h : 2 ∣ pre.length) :
    Dataset.eval_condition tup (condsOfPairs (pre ++ [NodeVal.str a, NodeVal.str v])) =
      (Dataset.eval_condition tup (condsOfPairs pre) && (getA tup a == v)) := by
  rw [condsOfPairs, pairUp_append _ _ h]
  simp [pairUp, Dataset.eval_condition, NodeVal.asStr, List.all_append, condsOfPairs]

/-- Core partition invariant: walking a tree built by the embedded `_id3` over
`dataset` from a prefix `pre` of even length, the derived conjunct lists match
a record never if the prefix conjuncts already fail, and exactly once if the
prefix conjuncts hold and the record belongs to `dataset`. -/
theorem id3F_partition : ∀ (fuel : Nat) (d : Dataset) (target : String)
    (attrs : List String) (dataset : List Record) (t : Node) (attrs' : List String),
    id3F d fuel target attrs dataset = Except.ok (t, attrs') →
    ∀ (tup : Record) (pre : List NodeVal), 2 ∣ pre.length →
      (Dataset.eval_condition tup (condsOfPairs pre) = false →
        (paths t pre).countP
          (fun r => Dataset.eval_condition tup (condsOfPairs r.dropLast)) = 0) ∧
      (Dataset.eval_condition tup (condsOfPairs pre) = true → tup ∈ dataset →
        (paths t pre).countP
          (fun r => Dataset.eval_condition tup (condsOfPairs r.dropLast)) = 1) := by
  intro fuel
  induction fuel with
  | zero =>
      intro d target attrs dataset t attrs' h
      simp [id3F] at h
  | succ fuel ih =>
      intro d target attrs dataset t attrs' h tup pre hpre
      rw [id3F] at h
      split at h
      · -- pure partition: a single leaf
        simp only [Except.ok.injEq, Prod.mk.injEq] at h
        rw [← h.1]
        simp only [paths, pathsList, if_pos rfl]
        constructor
        · intro hev
          simp [List.countP_cons, List.dropLast_concat, hev]
        · intro hev _
          simp [List.countP_cons, List.dropLast_concat, hev]
      · split at h
        · -- attrs exhausted: a single majority leaf
          split at h
          · cases h
          · simp only [Except.ok.injEq, Prod.mk.injEq] at h
            rw [← h.1]
            simp only [paths, pathsList, if_pos rfl]
            constructor
            · intro hev
              simp [List.countP_cons, List.dropLast_concat, hev]
            · intro hev _
              simp [List.countP_cons, List.dropLast_concat, hev]
        · -- attribute-test node
          rename_i hne1 hne2
          dsimp only at h
          split at h
          · cases h
          · rename_i children as' hfold
            simp only [Except.ok.injEq, Prod.mk.injEq] at h
            obtain ⟨pairs, hcs, hfst, hrec⟩ := fold_children_spec _ _ _ _ _ hfold
              (fun v hv => branch_subset_ne_nil hv)
            rw [List.nil_append] at hcs
            have key : ∀ (ps : List (String × Node)),
                (∀ p ∈ ps, ∃ as1 as2,
                  id3F d fuel target as1
                    (dataset.filter (fun tup => getA tup
                      (pymaxR (fun a => d.information_gain target a) attrs) == p.1)) =
                    Except.ok (p.2, as2)) →
                (Dataset.eval_condition tup (condsOfPairs pre) = false →
                  (pathsList (ps.map (fun p => Node.mk (NodeVal.str p.1) NType.val [p.2]))
                      (pre ++ [NodeVal.str (pymaxR (fun a => d.information_gain target a) attrs)])).countP
                    (fun r => Dataset.eval_condition tup (condsOfPairs r.dropLast)) = 0) ∧
                (Dataset.eval_condition tup (condsOfPairs pre) = true → tup ∈ dataset →
                  (pathsList (ps.map (fun p => Node.mk (NodeVal.str p.1) NType.val [p.2]))
                      (pre ++ [NodeVal.str (pymaxR (fun a => d.information_gain target a) attrs)])).countP
                    (fun r => Dataset.eval_condition tup (condsOfPairs r.dropLast)) =
                  (ps.map Prod.fst).count (getA tup
                    (pymaxR (fun a => d.information_gain target a) attrs))) := by
              intro ps
              induction ps with
              | nil =>
                  intro _
                  constructor
                  · intro _; simp [pathsList]
                  · intro _ _; simp [pathsList]
              | cons p ps ihp =>
                  intro hps
                  obtain ⟨as1, as2, hsub⟩ := hps p (List.mem_cons_self _ _)
                  have ihtail := ihp (fun q hq => hps q (List.mem_cons_of_mem _ hq))
                  have ihhead := ih d target as1 _ p.2 as2 hsub tup
                    (pre ++ [NodeVal.str (pymaxR (fun a => d.information_gain target a) attrs),
                      NodeVal.str p.1])
                    (by simp only [List.length_append, List.length_cons, List.length_nil]
                        omega)
                  have hsplit : pathsList
                      ((p :: ps).map (fun p => Node.mk (NodeVal.str p.1) NType.val [p.2]))
                      (pre ++ [NodeVal.str (pymaxR (fun a => d.information_gain target a) attrs)]) =
                      paths p.2 (pre ++ [NodeVal.str (pymaxR (fun a => d.information_gain target a) attrs),
                        NodeVal.str p.1]) ++
                      pathsList (ps.map (fun p => Node.mk (NodeVal.str p.1) NType.val [p.2]))
                        (pre ++ [NodeVal.str (pymaxR (fun a => d.information_gain target a) attrs)]) := by
                    simp [pathsList, paths]
                  have heval := eval_condsOfPairs_append2 tup pre
                    (pymaxR (fun a => d.information_gain target a) attrs) p.1 hpre
                  constructor
                  · intro hev
                    rw [hsplit, List.countP_append]
                    rw [ihtail.1 hev, (ihhead.1 (by rw [heval, hev]; simp))]
                  · intro hev htup
                    rw [hsplit, List.countP_append, List.map_cons, List.count_cons]
                    by_cases hveq : getA tup
                        (pymaxR (fun a => d.information_gain target a) attrs) = p.1
                    · have hbranch : Dataset.eval_condition tup
                          (condsOfPairs (pre ++ [NodeVal.str (pymaxR (fun a => d.information_gain target a) attrs),
                            NodeVal.str p.1])) = true := by
                        rw [heval, hev, hveq]
                        simp
                      have htupsub : tup ∈ dataset.filter (fun tup => getA tup
                          (pymaxR (fun a => d.information_gain target a) attrs) == p.1) :=
                        List.mem_filter.2 ⟨htup, by simp [hveq]⟩
                      rw [ihhead.2 hbranch htupsub, ihtail.2 hev htup]
                      simp only [hveq, List.count_cons, beq_self_eq_true, if_pos]
                      omega
                    · have hbranch : Dataset.eval_condition tup
                          (condsOfPairs (pre ++ [NodeVal.str (pymaxR (fun a => d.information_gain target a) attrs),
                            NodeVal.str p.1])) = false := by
                        rw [heval, hev]
                        simp [hveq]
                      rw [ihhead.1 hbranch, ihtail.2 hev htup]
                      have : (p.1 == getA tup
                          (pymaxR (fun a => d.information_gain target a) attrs)) = false := by
                        simp [Ne.symm hveq]
                      simp [this]
            rw [← h.1]
            have hpaths : paths (Node.mk
                (NodeVal.str (pymaxR (fun a => d.information_gain target a) attrs))
                NType.attr children) pre =
                pathsList children
                  (pre ++ [NodeVal.str (pymaxR (fun a => d.information_gain target a) attrs)]) := by
              simp [paths]
            rw [hpaths, hcs]
            refine ⟨fun hev => (key pairs hrec).1 hev, fun hev htup => ?_⟩
            rw [(key pairs hrec).2 hev htup, hfst]
            have hmem : getA tup (pymaxR (fun a => d.information_gain target a) attrs) ∈
                List.insertionSort (fun a b => a ≤ b)
                  (uniq (dataset.map (fun tup =>
                    getA tup (pymaxR (fun a => d.information_gain target a) attrs)))) := by
              rw [List.Perm.mem_iff (List.perm_insertionSort _ _), mem_uniq]
              exact List.mem_map.2 ⟨tup, htup, rfl⟩
            have hnd : (List.insertionSort (fun a b => a ≤ b)
                (uniq (dataset.map (fun tup =>
                  getA tup (pymaxR (fun a => d.information_gain target a) attrs))))).Nodup :=
              (List.Perm.nodup_iff (List.perm_insertionSort _ _)).2 (nodup_uniq _)
            exact List.count_eq_one_of_mem hnd hmem

/-! ### Concrete evaluation of the example table -/

theorem exD_data : exD.data = [[("A","a1"),("C","c1"),("B","b1"),("T","x")],
             [("A","a1"),("C","c1"),("B","b2"),("T","y")],
             [("A","a2"),("C","c2"),("B","b1"),("T","y")],
             [("A","a2"),("C","c2"),("B","b2"),("T","y")]] := rfl

theorem exD_target : exD.target = "T" := rfl

theorem exD_headers : exD.headers = ["A","C","B"] := rfl

theorem entropy_xy : entropyValues [[("A","a1"),("C","c1"),("B","b1"),("T","x")],
    [("A","a1"),("C","c1"),("B","b2"),("T","y")]] "T" = 1 := by
  rw [entropyValues]
  simp +decide [uniq, getA]
  norm_num [Real.logb_self_eq_one]

theorem entropy_yy : entropyValues [[("A","a2"),("C","c2"),("B","b1"),("T","y")],
    [("A","a2"),("C","c2"),("B","b2"),("T","y")]] "T" = 0 := by
  rw [entropyValues]
  simp +decide [uniq, getA]

theorem condent_A : exD.entropy "T" (some "A") none = 1/2 := by
  rw [Dataset.entropy]
  simp +decide [uniq, getA, List.lookup, exD_data, entropy_xy, entropy_yy]
  norm_num

theorem entropyValues_pair_ne (t1 t2 : Record) (r : String) (h : getA t1 r ≠ getA t2 r) :
    entropyValues [t1, t2] r = 1 := by
  rw [entropyValues]
  simp [uniq, h, Ne.symm h, List.count_cons]
  norm_num [Real.logb_self_eq_one]

theorem condent_C : exD.entropy "T" (some "C") none = 1/2 := by
  rw [Dataset.entropy]
  simp +decide [uniq, getA, List.lookup, exD_data, entropy_xy, entropy_yy]
  norm_num

theorem condent_B : exD.entropy "T" (some "B") none = 1/2 := by
  rw [Dataset.entropy]
  simp +decide [uniq, getA, List.lookup, exD_data]
  rw [entropyValues_pair_ne _ _ _ (by decide)]
  rw [show entropyValues [[("A","a1"),("C","c1"),("B","b2"),("T","y")],
        [("A","a2"),("C","c2"),("B","b2"),("T","y")]] "T" = 0 from ?_]
  · norm_num
  · rw [entropyValues]; simp +decide [uniq, getA]

theorem gain_CA : exD.information_gain "T" "C" = exD.information_gain "T" "A" := by
  rw [Dataset.information_gain, Dataset.information_gain, condent_A, condent_C]

theorem gain_BA : exD.information_gain "T" "B" = exD.information_gain "T" "A" := by
  rw [Dataset.information_gain, Dataset.information_gain, condent_A, condent_B]

theorem pymax_root : pymaxR (fun a => exD.information_gain "T" a) ["A","C","B"] = "A" := by
  refine pymaxR_eq_head _ "A" ["C","B"] ?_
  intro x hx
  simp only [List.mem_cons, List.not_mem_nil, or_false] at hx
  rcases hx with rfl | rfl
  · exact le_of_eq gain_CA
  · exact le_of_eq gain_BA

theorem pymax_lvl2 : pymaxR (fun a => exD.information_gain "T" a) ["C","B"] = "C" := by
  refine pymaxR_eq_head _ "C" ["B"] ?_
  intro x hx
  simp only [List.mem_cons, List.not_mem_nil, or_false] at hx
  subst hx
  rw [gain_BA, gain_CA]

theorem pymax_lvl3 : pymaxR (fun a => exD.information_gain "T" a) ["B"] = "B" :=
  pymaxR_eq_head _ "B" [] (by intro x hx; cases hx)

theorem exD_build : exD.build_tree = Except.ok (exTree, []) := by
  rw [Dataset.build_tree, exD_target, exD_headers]
  simp +decide [id3F, id3Step, exD_data, pymax_root, pymax_lvl2, pymax_lvl3, uniq, getA,
    List.lookup, mostCommon, exTree, List.insertionSort, List.orderedInsert]

/-- The recursive call reached inside the `A = a1` branch: attrs `[C, B]`,
record subset the two `a1` records.  The source chooses `C` there. -/
theorem exD_lvl2_call : id3F exD 3 "T" ["C","B"]
    [[("A","a1"),("C","c1"),("B","b1"),("T","x")],
     [("A","a1"),("C","c1"),("B","b2"),("T","y")]] =
    Except.ok (Node.mk (NodeVal.str "C") NType.attr [
      Node.mk (NodeVal.str "c1") NType.val [
        Node.mk (NodeVal.str "B") NType.attr [
          Node.mk (NodeVal.str "b1") NType.val [Node.mk (NodeVal.pair "T" "x") NType.label []],
          Node.mk (NodeVal.str "b2") NType.val [Node.mk (NodeVal.pair "T" "y") NType.label []]]]],
      []) := by
  simp +decide [id3F, id3Step, pymax_lvl2, pymax_lvl3, uniq, getA,
    List.lookup, mostCommon, List.insertionSort, List.orderedInsert]

theorem specSubsetGain_C : specSubsetGain
    [[("A","a1"),("C","c1"),("B","b1"),("T","x")],
     [("A","a1"),("C","c1"),("B","b2"),("T","y")]] "T" "C" = 0 := by
  rw [specSubsetGain, condEntropyOn, entropy_xy]
  simp +decide [uniq, getA, List.lookup, entropy_xy]

theorem entropyValues_singleton (t : Record) (r : String) :
    entropyValues [t] r = 0 := by
  rw [entropyValues]
  simp [uniq]

theorem specSubsetGain_B : specSubsetGain
    [[("A","a1"),("C","c1"),("B","b1"),("T","x")],
     [("A","a1"),("C","c1"),("B","b2"),("T","y")]] "T" "B" = 1 := by
  rw [specSubsetGain, condEntropyOn, entropy_xy]
  simp +decide [uniq, getA, List.lookup, entropyValues_singleton]

theorem exD_build_second :
    Dataset.build_tree { headers := [], target := exD.target, data := exD.data } =
    Except.ok (Node.mk (NodeVal.pair "T" "y") NType.label [], []) := by
  rw [Dataset.build_tree]
  simp +decide [id3F, uniq, getA, List.lookup, mostCommon, exD_data, exD_target]

theorem exD_buildTwice : buildTreeTwice exD =
    Except.ok (exTree, Node.mk (NodeVal.pair "T" "y") NType.label []) := by
  rw [buildTreeTwice, exD_build]
  dsimp only
  rw [exD_build_second]

theorem dEmpty_data : dEmpty.data = [] := rfl

theorem dEmpty_target : dEmpty.target = "T" := rfl

theorem dEmpty_headers : dEmpty.headers = ["W"] := rfl

theorem dEmpty_build : dEmpty.build_tree =
    Except.ok (Node.mk (NodeVal.str "W") NType.attr [], ["W"]) := by
  rw [Dataset.build_tree, dEmpty_data, dEmpty_target, dEmpty_headers]
  simp +decide [id3F, uniq, getA, mostCommon,
    pymaxR_eq_head (fun a => dEmpty.information_gain "T" a) "W" []
      (by intro x hx; cases hx),
    List.insertionSort]

theorem dEmpty_accuracy : dEmpty.accuracy =
    Except.ok (Except.error RunErr.zeroDiv) := by
  rw [Dataset.accuracy, dEmpty_build]
  simp [rulesOf, paths, pathsList, accuracyOn, totalCorrect, Except.map,
    dEmpty_data, dEmpty_target]

/-! ### Claim theorems -/

/-- C1: the claim says each recursive call selects the attribute maximizing
information gain over the record subset passed to that call.  The code's
`information_gain` always evaluates over `self.data`: on `exD`, the recursive
call reached with attrs `[C, B]` and the two `A = a1` records selects `C`
(all gains over the full table are equal, so the first remaining attribute
wins), although over that subset the gain of `B` (= 1) strictly exceeds the
gain of `C` (= 0), so the subset-maximizing attribute is uniquely `B`. -/
theorem C1_gain_over_full_table :
    exD.build_tree = Except.ok (exTree, []) ∧
    id3F exD 3 "T" ["C","B"]
      [[("A","a1"),("C","c1"),("B","b1"),("T","x")],
       [("A","a1"),("C","c1"),("B","b2"),("T","y")]] =
      Except.ok (Node.mk (NodeVal.str "C") NType.attr [
        Node.mk (NodeVal.str "c1") NType.val [
          Node.mk (NodeVal.str "B") NType.attr [
            Node.mk (NodeVal.str "b1") NType.val [Node.mk (NodeVal.pair "T" "x") NType.label []],
            Node.mk (NodeVal.str "b2") NType.val [Node.mk (NodeVal.pair "T" "y") NType.label []]]]],
        []) ∧
    specSubsetGain
      [[("A","a1"),("C","c1"),("B","b1"),("T","x")],
       [("A","a1"),("C","c1"),("B","b2"),("T","y")]] "T" "C" <
    specSubsetGain
      [[("A","a1"),("C","c1"),("B","b1"),("T","x")],
       [("A","a1"),("C","c1"),("B","b2"),("T","y")]] "T" "B" := by
  refine ⟨exD_build, exD_lvl2_call, ?_⟩
  rw [specSubsetGain_C, specSubsetGain_B]
  norm_num

/-- C2: the claim says the remaining-attribute set a recursive call receives
is unchanged when it returns.  The source mutates the shared `attrs` list in
place (`attrs.remove(attr)`): on `exD`, `build_tree` hands the recursion
`self.headers = [A, C, B]` and the call returns with the shared list left
empty. -/
theorem C2_attrs_mutated :
    exD.headers = ["A","C","B"] ∧
    exD.build_tree = Except.ok (exTree, []) ∧
    ([] : List String) ≠ exD.headers :=
  ⟨rfl, exD_build, by simp [exD_headers]⟩

/-- C3: the claim says building twice on an unmodified table yields
structurally identical trees.  The first `build_tree` call on `exD` empties
`self.headers` (the shared attrs list), so the second call returns a bare
majority leaf instead of the first call's attribute-test tree. -/
theorem C3_second_build_differs :
    buildTreeTwice exD =
      Except.ok (exTree, Node.mk (NodeVal.pair "T" "y") NType.label []) ∧
    exTree ≠ Node.mk (NodeVal.pair "T" "y") NType.label [] := by
  refine ⟨exD_buildTwice, ?_⟩
  intro h
  rw [show exTree = Node.mk (NodeVal.str "A") NType.attr exTree.children from rfl] at h
  injection h with h1 h2 h3
  cases h1

/-- C4: rules derived from the tree built on a table partition that table
exactly: every record of the table satisfies the conjuncts of exactly one
derived rule (hence is counted in exactly one rule's matched subset by the
accuracy loop, whose subsets are the `eval_condition` filters). -/
theorem C4_rules_partition (d : Dataset) (t : Node) (hs : List String)
    (h : d.build_tree = Except.ok (t, hs)) :
    ∀ tup ∈ d.data,
      (rulesOf t).countP (fun r => Dataset.eval_condition tup r.conds) = 1 := by
  intro tup htup
  rw [rulesOf, List.countP_map]
  have hpart := id3F_partition _ d d.target d.headers d.data t hs h tup []
    (by simp)
  exact hpart.2 rfl htup

/-- Witness for C4 at the concrete table `exD` and its first record. -/
theorem C4_witness :
    exD.build_tree = Except.ok (exTree, []) ∧
    (rulesOf exTree).countP
      (fun r => Dataset.eval_condition
        [("A","a1"),("C","c1"),("B","b1"),("T","x")] r.conds) = 1 :=
  ⟨exD_build, C4_rules_partition exD exTree [] exD_build _ (by decide)⟩

/-- C5 counterexample: the claim says a zero-record table fails with
`EmptyDatasetError` and nothing else.  The source has no such error: on the
zero-record table `dEmpty`, tree construction returns a childless
attribute-test node (entropy of an empty record list evaluates to 0), and the
accuracy computation fails with `ZeroDivisionError`. -/
theorem C5_counterexample :
    dEmpty.data = [] ∧
    dEmpty.build_tree = Except.ok (Node.mk (NodeVal.str "W") NType.attr [], ["W"]) ∧
    dEmpty.accuracy = Except.ok (Except.error RunErr.zeroDiv) :=
  ⟨rfl, dEmpty_build, dEmpty_accuracy⟩

/-- C5 amended: on every table with zero records (and at least one predictor),
tree construction succeeds, returning a childless attribute-test node with the
attrs list untouched, and the accuracy computation fails with a
division-by-zero error. -/
theorem C5_empty_table (d : Dataset) (hdata : d.data = []) (hh : d.headers ≠ []) :
    d.build_tree = Except.ok
      (Node.mk (NodeVal.str (pymaxR (fun a => d.information_gain d.target a) d.headers))
        NType.attr [], d.headers) ∧
    d.accuracy = Except.ok (Except.error RunErr.zeroDiv) := by
  have hbuild : d.build_tree = Except.ok
      (Node.mk (NodeVal.str (pymaxR (fun a => d.information_gain d.target a) d.headers))
        NType.attr [], d.headers) := by
    rw [Dataset.build_tree, hdata, id3F]
    rw [if_neg (by simp [uniq]), if_neg hh]
    simp [uniq, List.insertionSort]
  refine ⟨hbuild, ?_⟩
  rw [Dataset.accuracy, hbuild]
  simp [Except.map, rulesOf, paths, pathsList, accuracyOn, totalCorrect, hdata]

/-- Witness for the amended C5 at the concrete empty table. -/
theorem C5_witness :
    dEmpty.data = [] ∧ dEmpty.headers ≠ [] ∧
    (dEmpty.build_tree = Except.ok
      (Node.mk (NodeVal.str (pymaxR (fun a => dEmpty.information_gain dEmpty.target a)
        dEmpty.headers)) NType.attr [], dEmpty.headers) ∧
     dEmpty.accuracy = Except.ok (Except.error RunErr.zeroDiv)) :=
  ⟨rfl, by simp [dEmpty_headers], C5_empty_table dEmpty rfl (by simp [dEmpty_headers])⟩

/-- C6: the ID3 recursion terminates on every input: each non-terminal branch
strictly shrinks the finite remaining-attribute list, so any fuel exceeding
the number of remaining predictor attributes is never exhausted (the recursion
depth is bounded by the attribute count). -/
theorem C6_recursion_terminates (d : Dataset) (target : String) (attrs : List String)
    (dataset : List Record) (fuel : Nat) (h : attrs.length < fuel) :
    id3F d fuel target attrs dataset ≠ Except.error Id3Err.fuelOut :=
  id3F_fuel_sufficient fuel d target attrs dataset h

/-- Witness for C6 at a concrete input. -/
theorem C6_witness :
    ([] : List String).length < 1 ∧
    id3F dEmpty 1 "T" [] [] ≠ Except.error Id3Err.fuelOut :=
  ⟨by decide, C6_recursion_terminates dEmpty "T" [] [] 1 (by decide)⟩

/-- C9: in every tree the builder produces from a duplicate-free predictor
list, no attribute is tested twice on any root-to-leaf path: every
attribute-test node's attribute differs from all attributes tested by its
ancestors. -/
theorem C9_no_attribute_retested (d : Dataset) (t : Node) (hs : List String)
    (hnd : d.headers.Nodup) (h : d.build_tree = Except.ok (t, hs)) :
    distinctTests [] t = true :=
  id3F_distinct _ d d.target d.headers d.data t hs [] hnd (by simp) h

/-- Witness for C9 at the concrete table `exD`. -/
theorem C9_witness :
    exD.headers.Nodup ∧ distinctTests [] exTree = true :=
  ⟨by decide, C9_no_attribute_retested exD exTree [] (by decide) exD_build⟩

/-- C10: the empty-sub-partition fallback of the branch loop (a majority vote
over an empty value list, which would raise) is never executed: branch values
are exactly the attribute values observed in the current record subset, so
every sub-partition is non-empty.  This holds for every call of the embedded
`_id3`, with any fuel, attrs state and record subset. -/
theorem C10_fallback_unreachable : ∀ (fuel : Nat) (d : Dataset) (target : String)
    (attrs : List String) (dataset : List Record),
    id3F d fuel target attrs dataset ≠ Except.error Id3Err.emptySubsetMax :=
  id3F_ne_emptySubsetMax

/-! ### Entropy in sum form, and its analytic properties -/

theorem foldl_sub_eq (g : String → ℝ) : ∀ (l : List String) (init : ℝ),
    l.foldl (fun e v => e - g v) init = init - (l.map g).sum := by
  intro l
  induction l with
  | nil => intro init; simp
  | cons a l ih =>
      intro init
      rw [List.foldl_cons, ih, List.map_cons, List.sum_cons]
      ring

theorem foldl_add_eq (g : String → ℝ) : ∀ (l : List String) (init : ℝ),
    l.foldl (fun e v => e + g v) init = init + (l.map g).sum := by
  intro l
  induction l with
  | nil => intro init; simp
  | cons a l ih =>
      intro init
      rw [List.foldl_cons, ih, List.map_cons, List.sum_cons]
      ring

theorem uniq_toFinset (l : List String) : (uniq l).toFinset = l.toFinset := by
  ext x
  simp [List.mem_toFinset, mem_uniq]

theorem neg_mul_logb_eq (p : ℝ) :
    -(p * Real.logb 2 p) = Real.negMulLog p / Real.log 2 := by
  have h1 : Real.negMulLog p = -p * Real.log p := rfl
  have h2 : Real.logb 2 p = Real.log p / Real.log 2 := rfl
  rw [h1, h2]
  ring

theorem entropyValues_eq_sum (ds : List Record) (r : String) :
    entropyValues ds r =
      (∑ v in (ds.map (fun tup => getA tup r)).toFinset,
        Real.negMulLog (((ds.map (fun tup => getA tup r)).count v : ℝ) /
          ((ds.map (fun tup => getA tup r)).length : ℝ))) / Real.log 2 := by
  rw [entropyValues]
  rw [foldl_sub_eq (fun v => (((ds.map (fun tup => getA tup r)).count v : ℝ) /
      ((ds.map (fun tup => getA tup r)).length : ℝ)) *
      Real.logb 2 (((ds.map (fun tup => getA tup r)).count v : ℝ) /
        ((ds.map (fun tup => getA tup r)).length : ℝ)))]
  rw [← List.sum_toFinset _ (nodup_uniq _), uniq_toFinset, zero_sub,
    ← Finset.sum_neg_distrib, Finset.sum_div]
  refine Finset.sum_congr rfl ?_
  intro v _
  rw [neg_mul_logb_eq]

theorem condEntropyOn_eq_sum (ds : List Record) (r s : String) :
    condEntropyOn ds r s =
      ∑ v in (ds.map (fun tup => getA tup s)).toFinset,
        (((ds.map (fun tup => getA tup s)).count v : ℝ) /
          ((ds.map (fun tup => getA tup s)).length : ℝ)) *
        entropyValues (ds.filter (fun tup => getA tup s == v)) r := by
  rw [condEntropyOn]
  rw [foldl_add_eq (fun v => (((ds.map (fun tup => getA tup s)).count v : ℝ) /
      ((ds.map (fun tup => getA tup s)).length : ℝ)) *
      entropyValues (ds.filter (fun tup => getA tup s == v)) r)]
  rw [← List.sum_toFinset _ (nodup_uniq _), uniq_toFinset, zero_add]

theorem entropy_none_eq (d : Dataset) (r : String) :
    d.entropy r none none = entropyValues d.data r := rfl

theorem observed_filter_ne_nil {s v : String} {ds : List Record}
    (hv : v ∈ uniq (ds.map (fun tup => getA tup s))) :
    ds.filter (fun tup => getA tup s == v) ≠ [] := by
  have hv2 : v ∈ ds.map (fun tup => getA tup s) := (mem_uniq _ _).1 hv
  obtain ⟨tup, htup, hval⟩ := List.mem_map.1 hv2
  exact List.ne_nil_of_mem (List.mem_filter.2 ⟨htup, by simp [hval]⟩)

/-- The conditional branch of the source's `entropy` equals the clean
conditional entropy over `self.data`: the `if not dataset` fallback inside is
never taken, because every partition of an observed value is non-empty. -/
theorem entropy_cond_eq (d : Dataset) (r s : String) :
    d.entropy r (some s) none = condEntropyOn d.data r s := by
  rw [Dataset.entropy, condEntropyOn]
  refine List.foldl_ext _ _ 0 ?_
  intro b a ha
  dsimp only
  rw [if_neg (observed_filter_ne_nil ha)]

/-- Partition counting: summing `countP p` over the cells of the partition of
`ds` by the value of attribute `s` gives `countP p` over `ds`, for any index
set containing all observed values. -/
theorem countP_partition (s : String) (p : Record → Bool) :
    ∀ (ds : List Record) (V : Finset String), (∀ tup ∈ ds, getA tup s ∈ V) →
    ∑ v in V, (ds.filter (fun tup => getA tup s == v)).countP p = ds.countP p := by
  intro ds
  induction ds with
  | nil => intro V _; simp
  | cons x ds ih =>
      intro V hV
      have hx : getA x s ∈ V := hV x (List.mem_cons_self _ _)
      have hcell : ∀ v, ((x :: ds).filter (fun tup => getA tup s == v)).countP p =
          (ds.filter (fun tup => getA tup s == v)).countP p +
          (if getA x s = v then (if p x then 1 else 0) else 0) := by
        intro v
        by_cases hxv : getA x s = v
        · rw [List.filter_cons_of_pos (by simp [hxv]), List.countP_cons, if_pos hxv]
        · rw [List.filter_cons_of_neg (by simp [hxv]), if_neg hxv]
          omega
      calc ∑ v in V, ((x :: ds).filter (fun tup => getA tup s == v)).countP p
          = ∑ v in V, ((ds.filter (fun tup => getA tup s == v)).countP p +
              (if getA x s = v then (if p x then 1 else 0) else 0)) :=
            Finset.sum_congr rfl (fun v _ => hcell v)
        _ = (∑ v in V, (ds.filter (fun tup => getA tup s == v)).countP p) +
              (∑ v in V, if getA x s = v then (if p x then 1 else 0) else 0) :=
            Finset.sum_add_distrib
        _ = ds.countP p + (if p x then 1 else 0) := by
            rw [ih V (fun tup htup => hV tup (List.mem_cons_of_mem _ htup))]
            congr 1
            rw [Finset.sum_ite_eq V (getA x s) (fun _ => if p x then 1 else 0)]
            simp [hx]
        _ = (x :: ds).countP p := by
            rw [List.countP_cons]

theorem count_map_eq (ds : List Record) (g : Record → String) (v : String) :
    (ds.map g).count v = ds.countP (fun tup => g tup == v) := by
  rw [List.count, List.countP_map]
  rfl

theorem filter_length_eq (ds : List Record) (s v : String) :
    (ds.filter (fun tup => getA tup s == v)).length =
      (ds.map (fun tup => getA tup s)).count v := by
  rw [count_map_eq, List.countP_eq_length_filter]

theorem sum_count_div_eq_one {ds : List Record} (hne : ds ≠ []) (s : String) :
    ∑ v in (ds.map (fun tup => getA tup s)).toFinset,
      (((ds.map (fun tup => getA tup s)).count v : ℝ) / (ds.length : ℝ)) = 1 := by
  rw [← Finset.sum_div]
  rw [show ∑ v in (ds.map (fun tup => getA tup s)).toFinset,
      (((ds.map (fun tup => getA tup s)).count v : ℝ)) =
      (((ds.map (fun tup => getA tup s)).length : ℝ)) from ?_]
  · rw [List.length_map]
    exact div_self (Nat.cast_ne_zero.2 (List.length_pos.2 hne).ne')
  · rw [← Nat.cast_sum]
    congr 1
    simp

/-- Gibbs' inequality for the embedded entropies: splitting never increases
the value-weighted average entropy of the target. -/
theorem condEntropyOn_le_entropyValues (ds : List Record) (r s : String) :
    condEntropyOn ds r s ≤ entropyValues ds r := by
  rcases eq_or_ne ds [] with rfl | hne
  · rw [condEntropyOn, entropyValues]
    simp [uniq]
  · have hN : (0 : ℝ) < (ds.length : ℝ) := by
      exact_mod_cast List.length_pos.2 hne
    have hlog2 : (0 : ℝ) < Real.log 2 := Real.log_pos (by norm_num)
    -- sum forms
    rw [entropyValues_eq_sum, condEntropyOn_eq_sum]
    -- rewrite each partition entropy in extended sum form
    have hcell : ∀ v ∈ (ds.map (fun tup => getA tup s)).toFinset,
        entropyValues (ds.filter (fun tup => getA tup s == v)) r =
        (∑ t in (ds.map (fun tup => getA tup r)).toFinset,
          Real.negMulLog
            ((((ds.filter (fun tup => getA tup s == v)).map
                (fun tup => getA tup r)).count t : ℝ) /
              (((ds.map (fun tup => getA tup s)).count v : ℝ)))) / Real.log 2 := by
      intro v hv
      rw [entropyValues_eq_sum]
      congr 1
      rw [List.length_map, filter_length_eq]
      refine Finset.sum_subset ?_ ?_
      · -- observed values in the cell are observed in ds
        intro t ht
        rw [List.mem_toFinset] at ht ⊢
        obtain ⟨tup, htup, rfl⟩ := List.mem_map.1 ht
        exact List.mem_map.2 ⟨tup, List.mem_of_mem_filter htup, rfl⟩
      · intro t _ ht
        rw [List.mem_toFinset] at ht
        rw [List.count_eq_zero_of_not_mem ht]
        simp
    rw [Finset.sum_congr rfl (fun v hv => by rw [hcell v hv, List.length_map])]
    have hstep : ∀ v ∈ (ds.map (fun tup => getA tup s)).toFinset,
        (((ds.map (fun tup => getA tup s)).count v : ℝ) / (ds.length : ℝ)) *
          ((∑ t in (ds.map (fun tup => getA tup r)).toFinset,
            Real.negMulLog
              ((((ds.filter (fun tup => getA tup s == v)).map
                  (fun tup => getA tup r)).count t : ℝ) /
                (((ds.map (fun tup => getA tup s)).count v : ℝ)))) / Real.log 2) =
        (∑ t in (ds.map (fun tup => getA tup r)).toFinset,
          (((ds.map (fun tup => getA tup s)).count v : ℝ) / (ds.length : ℝ)) *
            Real.negMulLog
              ((((ds.filter (fun tup => getA tup s == v)).map
                  (fun tup => getA tup r)).count t : ℝ) /
                (((ds.map (fun tup => getA tup s)).count v : ℝ)))) / Real.log 2 := by
      intro v _
      rw [mul_div_assoc', Finset.mul_sum]
    rw [Finset.sum_congr rfl hstep, ← Finset.sum_div, div_le_div_iff_of_pos_right hlog2]
    rw [Finset.sum_comm]
    refine Finset.sum_le_sum ?_
    intro t _
    -- Jensen for one target value
    have hw0 : ∀ v ∈ (ds.map (fun tup => getA tup s)).toFinset,
        0 ≤ (((ds.map (fun tup => getA tup s)).count v : ℝ) / (ds.length : ℝ)) := by
      intro v _
      positivity
    have hw1 := sum_count_div_eq_one hne s
    have hmem : ∀ v ∈ (ds.map (fun tup => getA tup s)).toFinset,
        ((((ds.filter (fun tup => getA tup s == v)).map
            (fun tup => getA tup r)).count t : ℝ) /
          (((ds.map (fun tup => getA tup s)).count v : ℝ))) ∈ Set.Ici (0 : ℝ) := by
      intro v _
      exact Set.mem_Ici.2 (by positivity)
    have hjensen := Real.concaveOn_negMulLog.le_map_sum hw0 hw1 hmem
    simp only [smul_eq_mul] at hjensen
    refine le_trans hjensen ?_
    have hcenter : ∑ v in (ds.map (fun tup => getA tup s)).toFinset,
        (((ds.map (fun tup => getA tup s)).count v : ℝ) / (ds.length : ℝ)) *
          ((((ds.filter (fun tup => getA tup s == v)).map
              (fun tup => getA tup r)).count t : ℝ) /
            (((ds.map (fun tup => getA tup s)).count v : ℝ))) =
        (((ds.map (fun tup => getA tup r)).count t : ℝ) / (ds.length : ℝ)) := by
      have hterm : ∀ v ∈ (ds.map (fun tup => getA tup s)).toFinset,
          (((ds.map (fun tup => getA tup s)).count v : ℝ) / (ds.length : ℝ)) *
            ((((ds.filter (fun tup => getA tup s == v)).map
                (fun tup => getA tup r)).count t : ℝ) /
              (((ds.map (fun tup => getA tup s)).count v : ℝ))) =
          (((ds.filter (fun tup => getA tup s == v)).map
              (fun tup => getA tup r)).count t : ℝ) / (ds.length : ℝ) := by
        intro v hv
        have hnv : (((ds.map (fun tup => getA tup s)).count v : ℝ)) ≠ 0 := by
          rw [List.mem_toFinset] at hv
          exact_mod_cast (List.count_pos_iff.2 hv).ne'
        field_simp
        ring
      rw [Finset.sum_congr rfl hterm, ← Finset.sum_div]
      congr 1
      rw [← Nat.cast_sum]
      congr 1
      have hVs : ∀ tup ∈ ds, getA tup s ∈ (ds.map (fun tup => getA tup s)).toFinset := by
        intro tup htup
        rw [List.mem_toFinset]
        exact List.mem_map.2 ⟨tup, htup, rfl⟩
      calc ∑ v in (ds.map (fun tup => getA tup s)).toFinset,
            ((ds.filter (fun tup => getA tup s == v)).map
              (fun tup => getA tup r)).count t
          = ∑ v in (ds.map (fun tup => getA tup s)).toFinset,
            (ds.filter (fun tup => getA tup s == v)).countP
              (fun tup => getA tup r == t) :=
            Finset.sum_congr rfl (fun v _ => count_map_eq _ _ _)
        _ = ds.countP (fun tup => getA tup r == t) :=
            countP_partition s (fun tup => getA tup r == t) ds _ hVs
        _ = (ds.map (fun tup => getA tup r)).count t := (count_map_eq _ _ _).symm
    rw [hcenter, List.length_map]

/-- C8: information gain — entropy of the target minus the split-weighted
average entropy over the partitions induced by the split attribute — is
non-negative for every non-empty record list (as the code computes it, over
`self.data`). -/
theorem C8_information_gain_nonneg (d : Dataset) (r s : String) (_h : d.data ≠ []) :
    0 ≤ d.information_gain r s := by
  rw [Dataset.information_gain, entropy_none_eq, entropy_cond_eq]
  have := condEntropyOn_le_entropyValues d.data r s
  linarith

/-- Witness for C8 at the concrete table `exD`. -/
theorem C8_witness : exD.data ≠ [] ∧ 0 ≤ exD.information_gain "T" "A" :=
  ⟨by simp [exD_data], C8_information_gain_nonneg exD "T" "A" (by simp [exD_data])⟩

theorem sum_count_div_list {l : List String} (hne : l ≠ []) :
    ∑ v in l.toFinset, ((l.count v : ℝ) / (l.length : ℝ)) = 1 := by
  rw [← Finset.sum_div]
  rw [show ∑ v in l.toFinset, ((l.count v : ℝ)) = ((l.length : ℝ)) from ?_]
  · exact div_self (Nat.cast_ne_zero.2 (List.length_pos.2 hne).ne')
  · rw [← Nat.cast_sum]
    congr 1
    simp

theorem entropy_zero_iff {subset : List Record} (r : String) (hne : subset ≠ []) :
    entropyValues subset r = 0 ↔
      ∀ x ∈ subset, ∀ y ∈ subset, getA x r = getA y r := by
  have hlog2 : Real.log 2 ≠ 0 := (Real.log_pos (by norm_num)).ne'
  have hNpos : (0 : ℝ) < ((subset.map (fun tup => getA tup r)).length : ℝ) := by
    rw [List.length_map]
    exact_mod_cast List.length_pos.2 hne
  have hterm : ∀ v ∈ (subset.map (fun tup => getA tup r)).toFinset,
      0 ≤ Real.negMulLog (((subset.map (fun tup => getA tup r)).count v : ℝ) /
        ((subset.map (fun tup => getA tup r)).length : ℝ)) := by
    intro v _
    refine Real.negMulLog_nonneg (by positivity) ?_
    rw [div_le_one hNpos]
    exact_mod_cast List.count_le_length _ _
  rw [entropyValues_eq_sum, div_eq_zero_iff, or_iff_left hlog2,
    Finset.sum_eq_zero_iff_of_nonneg hterm]
  constructor
  · intro h x hx y hy
    have hvx : getA x r ∈ (subset.map (fun tup => getA tup r)) :=
      List.mem_map.2 ⟨x, hx, rfl⟩
    have h0 := h (getA x r) (List.mem_toFinset.2 hvx)
    have hppos : (0 : ℝ) <
        (((subset.map (fun tup => getA tup r)).count (getA x r) : ℝ) /
          ((subset.map (fun tup => getA tup r)).length : ℝ)) := by
      refine div_pos ?_ hNpos
      exact_mod_cast List.count_pos_iff.2 hvx
    rw [Real.negMulLog] at h0
    have hlog0 : Real.log
        (((subset.map (fun tup => getA tup r)).count (getA x r) : ℝ) /
          ((subset.map (fun tup => getA tup r)).length : ℝ)) = 0 := by
      rcases mul_eq_zero.1 (by linarith : (((subset.map (fun tup => getA tup r)).count (getA x r) : ℝ) /
          ((subset.map (fun tup => getA tup r)).length : ℝ)) * Real.log
            (((subset.map (fun tup => getA tup r)).count (getA x r) : ℝ) /
              ((subset.map (fun tup => getA tup r)).length : ℝ)) = 0) with h1 | h1
      · exact absurd h1 hppos.ne'
      · exact h1
    have hp1 : (((subset.map (fun tup => getA tup r)).count (getA x r) : ℝ) /
        ((subset.map (fun tup => getA tup r)).length : ℝ)) = 1 := by
      rcases Real.log_eq_zero.1 hlog0 with h1 | h1 | h1
      · exact absurd h1 hppos.ne'
      · exact h1
      · linarith
    have hcount : (subset.map (fun tup => getA tup r)).count (getA x r) =
        (subset.map (fun tup => getA tup r)).length := by
      have := (div_eq_one_iff_eq hNpos.ne').1 hp1
      exact_mod_cast this
    have hall := List.count_eq_length.1 hcount
    have hy' : getA y r ∈ (subset.map (fun tup => getA tup r)) :=
      List.mem_map.2 ⟨y, hy, rfl⟩
    exact hall _ hy'
  · intro h v hv
    rw [List.mem_toFinset] at hv
    obtain ⟨x, hx, rfl⟩ := List.mem_map.1 hv
    have hcount : (subset.map (fun tup => getA tup r)).count (getA x r) =
        (subset.map (fun tup => getA tup r)).length := by
      refine List.count_eq_length.2 ?_
      intro b hb
      obtain ⟨y, hy, rfl⟩ := List.mem_map.1 hb
      exact (h x hx y hy)
    rw [hcount, div_self hNpos.ne']
    simp

theorem entropy_le_logb {subset : List Record} (r : String) (hne : subset ≠ []) :
    entropyValues subset r ≤
      Real.logb 2 ((uniq (subset.map (fun tup => getA tup r))).length : ℝ) := by
  have hlne : subset.map (fun tup => getA tup r) ≠ [] := by
    simp [hne]
  have hlog2 : (0 : ℝ) < Real.log 2 := Real.log_pos (by norm_num)
  have hVne : (subset.map (fun tup => getA tup r)).toFinset.Nonempty := by
    obtain ⟨x, hx⟩ := List.exists_mem_of_ne_nil _ hlne
    exact ⟨x, List.mem_toFinset.2 hx⟩
  have hkcard : ((uniq (subset.map (fun tup => getA tup r))).length) =
      (subset.map (fun tup => getA tup r)).toFinset.card := by
    rw [← uniq_toFinset, List.toFinset_card_of_nodup (nodup_uniq _)]
  have hkpos : (0 : ℝ) < ((subset.map (fun tup => getA tup r)).toFinset.card : ℝ) := by
    exact_mod_cast Finset.card_pos.2 hVne
  have hw0 : ∀ v ∈ (subset.map (fun tup => getA tup r)).toFinset,
      (0:ℝ) ≤ (((subset.map (fun tup => getA tup r)).toFinset.card : ℝ))⁻¹ :=
    fun v _ => by positivity
  have hw1 : ∑ _v in (subset.map (fun tup => getA tup r)).toFinset,
      (((subset.map (fun tup => getA tup r)).toFinset.card : ℝ))⁻¹ = 1 := by
    rw [Finset.sum_const, nsmul_eq_mul]
    exact mul_inv_cancel₀ hkpos.ne'
  have hmem : ∀ v ∈ (subset.map (fun tup => getA tup r)).toFinset,
      (((subset.map (fun tup => getA tup r)).count v : ℝ) /
        ((subset.map (fun tup => getA tup r)).length : ℝ)) ∈ Set.Ici (0:ℝ) :=
    fun v _ => Set.mem_Ici.2 (by positivity)
  have hjensen := Real.concaveOn_negMulLog.le_map_sum hw0 hw1 hmem
  simp only [smul_eq_mul] at hjensen
  have hcenter : ∑ v in (subset.map (fun tup => getA tup r)).toFinset,
      (((subset.map (fun tup => getA tup r)).toFinset.card : ℝ))⁻¹ *
        (((subset.map (fun tup => getA tup r)).count v : ℝ) /
          ((subset.map (fun tup => getA tup r)).length : ℝ)) =
      (((subset.map (fun tup => getA tup r)).toFinset.card : ℝ))⁻¹ := by
    rw [← Finset.mul_sum, sum_count_div_list hlne, mul_one]
  rw [hcenter] at hjensen
  have hnml : Real.negMulLog ((((subset.map (fun tup => getA tup r)).toFinset.card : ℝ))⁻¹) =
      (((subset.map (fun tup => getA tup r)).toFinset.card : ℝ))⁻¹ *
        Real.log (((subset.map (fun tup => getA tup r)).toFinset.card : ℝ)) := by
    rw [Real.negMulLog, Real.log_inv]
    ring
  rw [hnml, ← Finset.mul_sum] at hjensen
  have hsum_le : ∑ v in (subset.map (fun tup => getA tup r)).toFinset,
      Real.negMulLog (((subset.map (fun tup => getA tup r)).count v : ℝ) /
        ((subset.map (fun tup => getA tup r)).length : ℝ)) ≤
      Real.log (((subset.map (fun tup => getA tup r)).toFinset.card : ℝ)) :=
    le_of_mul_le_mul_left hjensen (inv_pos.2 hkpos)
  rw [entropyValues_eq_sum]
  rw [show Real.logb 2 ((uniq (subset.map (fun tup => getA tup r))).length : ℝ) =
      Real.log ((uniq (subset.map (fun tup => getA tup r))).length : ℝ) / Real.log 2 from rfl]
  rw [div_le_div_iff_of_pos_right hlog2, hkcard]
  exact_mod_cast hsum_le

theorem entropy_eq_logb_iff {subset : List Record} (r : String) (hne : subset ≠ []) :
    entropyValues subset r =
      Real.logb 2 ((uniq (subset.map (fun tup => getA tup r))).length : ℝ) ↔
    ∀ v ∈ uniq (subset.map (fun tup => getA tup r)),
      (subset.map (fun tup => getA tup r)).count v *
        (uniq (subset.map (fun tup => getA tup r))).length =
      (subset.map (fun tup => getA tup r)).length := by
  have hlne : subset.map (fun tup => getA tup r) ≠ [] := by simp [hne]
  have hlog2 : Real.log 2 ≠ 0 := (Real.log_pos (by norm_num)).ne'
  have hNpos : (0 : ℝ) < ((subset.map (fun tup => getA tup r)).length : ℝ) := by
    have := List.length_pos.2 hlne
    exact_mod_cast this
  have hVne : (subset.map (fun tup => getA tup r)).toFinset.Nonempty := by
    obtain ⟨x, hx⟩ := List.exists_mem_of_ne_nil _ hlne
    exact ⟨x, List.mem_toFinset.2 hx⟩
  have hkcard : ((uniq (subset.map (fun tup => getA tup r))).length) =
      (subset.map (fun tup => getA tup r)).toFinset.card := by
    rw [← uniq_toFinset, List.toFinset_card_of_nodup (nodup_uniq _)]
  have hkpos : (0 : ℝ) < ((subset.map (fun tup => getA tup r)).toFinset.card : ℝ) := by
    exact_mod_cast Finset.card_pos.2 hVne
  have hw0 : ∀ v ∈ (subset.map (fun tup => getA tup r)).toFinset,
      (0:ℝ) < (((subset.map (fun tup => getA tup r)).toFinset.card : ℝ))⁻¹ :=
    fun v _ => by positivity
  have hw1 : ∑ _v in (subset.map (fun tup => getA tup r)).toFinset,
      (((subset.map (fun tup => getA tup r)).toFinset.card : ℝ))⁻¹ = 1 := by
    rw [Finset.sum_const, nsmul_eq_mul]
    exact mul_inv_cancel₀ hkpos.ne'
  have hmem : ∀ v ∈ (subset.map (fun tup => getA tup r)).toFinset,
      (((subset.map (fun tup => getA tup r)).count v : ℝ) /
        ((subset.map (fun tup => getA tup r)).length : ℝ)) ∈ Set.Ici (0:ℝ) :=
    fun v _ => Set.mem_Ici.2 (by positivity)
  have hcenter : ∑ v in (subset.map (fun tup => getA tup r)).toFinset,
      (((subset.map (fun tup => getA tup r)).toFinset.card : ℝ))⁻¹ *
        (((subset.map (fun tup => getA tup r)).count v : ℝ) /
          ((subset.map (fun tup => getA tup r)).length : ℝ)) =
      (((subset.map (fun tup => getA tup r)).toFinset.card : ℝ))⁻¹ := by
    rw [← Finset.mul_sum, sum_count_div_list hlne, mul_one]
  have hiff := Real.strictConcaveOn_negMulLog.map_sum_eq_iff hw0 hw1 hmem
  simp only [smul_eq_mul] at hiff
  rw [hcenter] at hiff
  have hnml : Real.negMulLog ((((subset.map (fun tup => getA tup r)).toFinset.card : ℝ))⁻¹) =
      (((subset.map (fun tup => getA tup r)).toFinset.card : ℝ))⁻¹ *
        Real.log (((subset.map (fun tup => getA tup r)).toFinset.card : ℝ)) := by
    rw [Real.negMulLog, Real.log_inv]
    ring
  rw [hnml, ← Finset.mul_sum] at hiff
  constructor
  · intro heq
    -- from H = logb k to the scaled Jensen equality, then uniform counts
    have hsum : ∑ v in (subset.map (fun tup => getA tup r)).toFinset,
        Real.negMulLog (((subset.map (fun tup => getA tup r)).count v : ℝ) /
          ((subset.map (fun tup => getA tup r)).length : ℝ)) =
        Real.log (((subset.map (fun tup => getA tup r)).toFinset.card : ℝ)) := by
      rw [entropyValues_eq_sum] at heq
      rw [show Real.logb 2 ((uniq (subset.map (fun tup => getA tup r))).length : ℝ) =
        Real.log ((uniq (subset.map (fun tup => getA tup r))).length : ℝ) / Real.log 2
        from rfl] at heq
      have hcast := heq
      field_simp at hcast
      rw [hkcard] at hcast
      rw [List.length_map]
      exact_mod_cast hcast
    have huniform := hiff.1 (by rw [hsum])
    intro v hv
    have hv' : v ∈ (subset.map (fun tup => getA tup r)).toFinset :=
      List.mem_toFinset.2 ((mem_uniq _ _).1 hv)
    have hp := huniform v hv'
    -- count v / N = 1/k  →  count v * k = N
    have : (((subset.map (fun tup => getA tup r)).count v : ℝ)) *
        (((subset.map (fun tup => getA tup r)).toFinset.card : ℝ)) =
        (((subset.map (fun tup => getA tup r)).length : ℝ)) := by
      rw [div_eq_iff hNpos.ne'] at hp
      field_simp at hp ⊢
      linarith [hp]
    rw [hkcard]
    exact_mod_cast this
  · intro hunif
    -- uniform counts give the Jensen equality, hence H = logb k
    have huniform : ∀ v ∈ (subset.map (fun tup => getA tup r)).toFinset,
        (((subset.map (fun tup => getA tup r)).count v : ℝ) /
          ((subset.map (fun tup => getA tup r)).length : ℝ)) =
        (((subset.map (fun tup => getA tup r)).toFinset.card : ℝ))⁻¹ := by
      intro v hv
      have hv' : v ∈ uniq (subset.map (fun tup => getA tup r)) :=
        (mem_uniq _ _).2 (List.mem_toFinset.1 hv)
      have h1 := hunif v hv'
      have h2 : (((subset.map (fun tup => getA tup r)).count v : ℝ)) *
          (((subset.map (fun tup => getA tup r)).toFinset.card : ℝ)) =
          (((subset.map (fun tup => getA tup r)).length : ℝ)) := by
        rw [← hkcard]
        exact_mod_cast h1
      rw [div_eq_iff hNpos.ne', ← h2]
      field_simp
    have hsum : ∑ v in (subset.map (fun tup => getA tup r)).toFinset,
        Real.negMulLog (((subset.map (fun tup => getA tup r)).count v : ℝ) /
          ((subset.map (fun tup => getA tup r)).length : ℝ)) =
        Real.log (((subset.map (fun tup => getA tup r)).toFinset.card : ℝ)) := by
      have := hiff.2 (fun j hj => huniform j hj)
      have hkinv : (((subset.map (fun tup => getA tup r)).toFinset.card : ℝ))⁻¹ ≠ 0 := by
        positivity
      exact (mul_right_inj' hkinv).1 this.symm
    rw [entropyValues_eq_sum, hsum,
      show Real.logb 2 ((uniq (subset.map (fun tup => getA tup r))).length : ℝ) =
        Real.log ((uniq (subset.map (fun tup => getA tup r))).length : ℝ) / Real.log 2
        from rfl, hkcard]

/-- C7: over every non-empty record subset, the entropy of the target is 0
exactly when all records share one target value, it never exceeds log2 of the
number of distinct target values, and it attains that maximum exactly when
all distinct target values occur equally often. -/
theorem C7_entropy_characterization (subset : List Record) (r : String)
    (hne : subset ≠ []) :
    (entropyValues subset r = 0 ↔
      ∀ x ∈ subset, ∀ y ∈ subset, getA x r = getA y r) ∧
    entropyValues subset r ≤
      Real.logb 2 ((uniq (subset.map (fun tup => getA tup r))).length : ℝ) ∧
    (entropyValues subset r =
        Real.logb 2 ((uniq (subset.map (fun tup => getA tup r))).length : ℝ) ↔
      ∀ v ∈ uniq (subset.map (fun tup => getA tup r)),
        (subset.map (fun tup => getA tup r)).count v *
          (uniq (subset.map (fun tup => getA tup r))).length =
        (subset.map (fun tup => getA tup r)).length) :=
  ⟨entropy_zero_iff r hne, entropy_le_logb r hne, entropy_eq_logb_iff r hne⟩

/-- Witness for C7 at a concrete two-record subset. -/
theorem C7_witness :
    ([[("T","x")], [("T","y")]] : List Record) ≠ [] ∧
    ((entropyValues [[("T","x")], [("T","y")]] "T" = 0 ↔
      ∀ x ∈ ([[("T","x")], [("T","y")]] : List Record),
        ∀ y ∈ ([[("T","x")], [("T","y")]] : List Record), getA x "T" = getA y "T") ∧
    entropyValues [[("T","x")], [("T","y")]] "T" ≤
      Real.logb 2 ((uniq (([[("T","x")], [("T","y")]] : List Record).map
        (fun tup => getA tup "T"))).length : ℝ) ∧
    (entropyValues [[("T","x")], [("T","y")]] "T" =
        Real.logb 2 ((uniq (([[("T","x")], [("T","y")]] : List Record).map
          (fun tup => getA tup "T"))).length : ℝ) ↔
      ∀ v ∈ uniq (([[("T","x")], [("T","y")]] : List Record).map
          (fun tup => getA tup "T")),
        (([[("T","x")], [("T","y")]] : List Record).map
          (fun tup => getA tup "T")).count v *
          (uniq (([[("T","x")], [("T","y")]] : List Record).map
            (fun tup => getA tup "T"))).length =
        (([[("T","x")], [("T","y")]] : List Record).map
          (fun tup => getA tup "T")).length)) :=
  ⟨by decide, C7_entropy_characterization [[("T","x")], [("T","y")]] "T" (by decide)⟩
